import Mathlib

/-!
Verification of the lint coordination and decoration-mapping subsystem of the
Vestby Prøve exam editor: the worker message protocol, the debounce/versioning
scheme, the dual-dialect merge, the offset-to-position mapper and the result
filtering, shallowly embedded from the TypeScript sources
(`src/HarperExtension.ts`, `src/NorwegianExtension.ts`, the worker files and
`src/App.tsx`).
-/

namespace VestbyProve

/-- Embeds the `span` field of `HarperLintResult` / `LintResult`: a half-open
range of flat character offsets. Offsets are modelled as integers. -/
structure Span where
  start : Int
  «end» : Int
deriving DecidableEq, Repr

/-- Embeds `HarperLintResult` (`src/HarperExtension.ts`) / `LintResult`
(`src/norwegian.worker.ts`): one lint issue as exchanged between workers and
the interactive side. -/
structure LintResult where
  message : String
  span : Span
  suggestions : List String
  category : String
deriving DecidableEq, Repr

/-- Embeds the `{text, version}` payload of a `lint` request posted to a
worker. -/
structure LintRequest where
  text : String
  version : Nat
deriving DecidableEq, Repr

/-- Embeds a text leaf of the ProseMirror document as visited by
`doc.descendants` in `App.tsx`: its document position `pos` and its text. -/
structure Leaf where
  pos : Int
  text : String
deriving DecidableEq, Repr

/-- Embeds the ProseMirror document as far as the position mapper observes it:
its text leaves in document order and `doc.content.size`. -/
structure Doc where
  leaves : List Leaf
  contentSize : Int
deriving DecidableEq, Repr

/-- Embeds the per-leaf match test of `getPos` in `src/App.tsx`: in end mode a
leaf spanning flat offsets `[cur, cur + len)` matches when
`off > cur ∧ off ≤ cur + len`, in start mode when `off ≥ cur ∧ off < cur + len`. -/
def leafMatch (isEnd : Bool) (off cur len : Int) : Bool :=
  if isEnd then off > cur && off ≤ cur + len else off ≥ cur && off < cur + len

/-- Embeds the leaf walk of `getPos` in `src/App.tsx` (the body of
`doc.descendants`): walk the text leaves keeping a running flat-text cursor
`cur`; on a match return `leaf.pos + (off - cur)` and stop.  The walk is
instrumented with the index `idx` of the matching leaf so that theorems can
speak about which leaf matched. -/
def findHitAux : List Leaf → Int → Bool → Int → Nat → Option (Nat × Int)
  | [], _, _, _, _ => none
  | leaf :: rest, off, isEnd, cur, idx =>
    if leafMatch isEnd off cur (leaf.text.length : Int) then
      some (idx, leaf.pos + (off - cur))
    else
      findHitAux rest off isEnd (cur + (leaf.text.length : Int)) (idx + 1)

/-- The leaf walk of `getPos` started at flat cursor 0 on the document's
leaves. -/
def findHit (doc : Doc) (off : Int) (isEnd : Bool) : Option (Nat × Int) :=
  findHitAux doc.leaves off isEnd 0 0

/-- Embeds `getPos` from `src/App.tsx`: offset 0 in start mode short-circuits
to position 1; otherwise the leaf walk runs, and both the found position and
the not-found fallback `charOffset + 1` are clamped into
`[1, max 1 (contentSize - 1)]`. -/
def getPos (doc : Doc) (charOffset : Int) (isEnd : Bool) : Int :=
  if charOffset == 0 && !isEnd then 1
  else
    match findHit doc charOffset isEnd with
    | some hit => min (max 1 hit.2) (max 1 (doc.contentSize - 1))
    | none => min (max 1 (charOffset + 1)) (max 1 (doc.contentSize - 1))

/-- Flat-text offset at which leaf `i` starts: the sum of the lengths of the
leaves before it. -/
def flatStart (leaves : List Leaf) (i : Nat) : Int :=
  ((leaves.take i).map (fun l => (l.text.length : Int))).sum

end VestbyProve

namespace VestbyProve

theorem flatStart_nonneg (leaves : List Leaf) (i : Nat) : 0 ≤ flatStart leaves i := by
  unfold flatStart
  induction leaves generalizing i with
  | nil => simp
  | cons l ls ih =>
    cases i with
    | zero => simp
    | succ j =>
      simp only [List.take_succ_cons, List.map_cons, List.sum_cons]
      have := ih j
      positivity

theorem flatStart_cons_succ (l : Leaf) (ls : List Leaf) (j : Nat) :
    flatStart (l :: ls) (j + 1) = (l.text.length : Int) + flatStart ls j := by
  simp [flatStart]

/-- C4: for every integer character offset (negative, zero or out of range)
and either mapping mode, `getPos` returns a position inside
`[1, max 1 (doc.content.size - 1)]`; when the leaf walk finds no match it
falls back to clamping `charOffset + 1` into that interval. -/
theorem getPos_bounds (doc : Doc) (off : Int) (isEnd : Bool) :
    (1 ≤ getPos doc off isEnd ∧ getPos doc off isEnd ≤ max 1 (doc.contentSize - 1)) ∧
    (findHit doc off isEnd = none →
      getPos doc off isEnd = min (max 1 (off + 1)) (max 1 (doc.contentSize - 1))) := by
  unfold getPos
  by_cases h0 : (off == 0 && !isEnd) = true
  · have hoff : off = 0 := by
      have := Bool.and_elim_left h0
      exact eq_of_beq this
    simp only [h0, if_true]
    refine ⟨⟨le_refl 1, le_max_left _ _⟩, fun _ => ?_⟩
    rw [hoff]
    simp
  · simp only [h0]
    cases hfind : findHit doc off isEnd with
    | some hit =>
      simp only [hfind]
      exact ⟨⟨le_min (le_max_left _ _) (le_max_left _ _), min_le_right _ _⟩,
        fun h => by simp at h⟩
    | none =>
      simp only [hfind]
      exact ⟨⟨le_min (le_max_left _ _) (le_max_left _ _), min_le_right _ _⟩,
        fun _ => rfl⟩

theorem leafMatch_start_iff (off cur len : Int) :
    leafMatch false off cur len = true ↔ cur ≤ off ∧ off < cur + len := by
  simp [leafMatch, ge_iff_le]

theorem leafMatch_end_iff (off cur len : Int) :
    leafMatch true off cur len = true ↔ cur < off ∧ off ≤ cur + len := by
  simp [leafMatch, gt_iff_lt]

theorem findHitAux_le_index (leaves : List Leaf) (off : Int) (isEnd : Bool) :
    ∀ (cur : Int) (idx j : Nat) (t : Int),
      findHitAux leaves off isEnd cur idx = some (j, t) → idx ≤ j := by
  induction leaves with
  | nil => intro cur idx j t h; simp [findHitAux] at h
  | cons l ls ih =>
    intro cur idx j t h
    rw [findHitAux] at h
    split at h
    · simp only [Option.some.injEq, Prod.mk.injEq] at h
      omega
    · exact Nat.le_of_succ_le (ih _ _ _ _ h)

theorem findHitAux_start_at_flatStart (leaves : List Leaf) :
    ∀ (i : Nat) (hi : i < leaves.length) (cur : Int) (idx : Nat),
      0 < (leaves.get ⟨i, hi⟩).text.length →
      findHitAux leaves (cur + flatStart leaves i) false cur idx
        = some (idx + i, (leaves.get ⟨i, hi⟩).pos) := by
  induction leaves with
  | nil => intro i hi; simp at hi
  | cons l ls ih =>
    intro i hi cur idx hne
    cases i with
    | zero =>
      have hlen : (0 : Int) < (l.text.length : Int) := by
        exact_mod_cast (by simpa using hne : 0 < l.text.length)
      have h0 : flatStart (l :: ls) 0 = 0 := by simp [flatStart]
      rw [findHitAux, h0, add_zero, if_pos]
      · simp
      · exact (leafMatch_start_iff ..).mpr ⟨le_refl cur, by linarith⟩
    | succ j =>
      have hj : j < ls.length := Nat.lt_of_succ_lt_succ hi
      have hfs : 0 ≤ flatStart ls j := flatStart_nonneg ls j
      rw [findHitAux, flatStart_cons_succ, if_neg]
      · have ihj := ih j hj (cur + (l.text.length : Int)) (idx + 1) (by simpa using hne)
        rw [show cur + ((l.text.length : Int) + flatStart ls j)
              = cur + (l.text.length : Int) + flatStart ls j by ring, ihj]
        simp [Nat.add_comm 1 j, Nat.add_assoc]
      · rw [leafMatch_start_iff]
        intro hm
        linarith [hm.2]

theorem findHitAux_end_at_flatEnd (leaves : List Leaf) :
    ∀ (i : Nat) (hi : i < leaves.length) (cur : Int) (idx : Nat),
      0 < (leaves.get ⟨i, hi⟩).text.length →
      findHitAux leaves
          (cur + flatStart leaves i + ((leaves.get ⟨i, hi⟩).text.length : Int)) true cur idx
        = some (idx + i,
            (leaves.get ⟨i, hi⟩).pos + ((leaves.get ⟨i, hi⟩).text.length : Int)) := by
  induction leaves with
  | nil => intro i hi; simp at hi
  | cons l ls ih =>
    intro i hi cur idx hne
    cases i with
    | zero =>
      have hlen : (0 : Int) < (l.text.length : Int) := by
        exact_mod_cast (by simpa using hne : 0 < l.text.length)
      have h0 : flatStart (l :: ls) 0 = 0 := by simp [flatStart]
      have hget : (l :: ls).get ⟨0, hi⟩ = l := rfl
      rw [hget] at hne ⊢
      rw [findHitAux, h0, add_zero, if_pos]
      · simp only [Option.some.injEq, Prod.mk.injEq, Nat.add_zero]
        exact ⟨trivial, by ring⟩
      · exact (leafMatch_end_iff ..).mpr ⟨by linarith, le_refl _⟩
    | succ j =>
      have hj : j < ls.length := Nat.lt_of_succ_lt_succ hi
      have hfs : 0 ≤ flatStart ls j := flatStart_nonneg ls j
      simp only [List.get_cons_succ] at hne ⊢
      have hlen2 : (0 : Int) < ((ls.get ⟨j, hj⟩).text.length : Int) := by
        exact_mod_cast hne
      rw [findHitAux, flatStart_cons_succ, if_neg]
      · have ihj := ih j hj (cur + (l.text.length : Int)) (idx + 1) hne
        rw [show cur + ((l.text.length : Int) + flatStart ls j)
                + ((ls.get ⟨j, hj⟩).text.length : Int)
              = cur + (l.text.length : Int) + flatStart ls j
                + ((ls.get ⟨j, hj⟩).text.length : Int) by ring, ihj]
        simp [Nat.add_comm 1 j, Nat.add_assoc]
      · rw [leafMatch_end_iff]
        intro hm
        linarith [hm.2]

theorem findHitAux_start_miss_at_flatEnd (leaves : List Leaf) :
    ∀ (i : Nat) (hi : i < leaves.length) (cur : Int) (idx : Nat),
      0 < (leaves.get ⟨i, hi⟩).text.length →
      ∀ (j : Nat) (t : Int),
        findHitAux leaves
            (cur + flatStart leaves i + ((leaves.get ⟨i, hi⟩).text.length : Int)) false cur idx
          = some (j, t) → idx + i < j := by
  induction leaves with
  | nil => intro i hi; simp at hi
  | cons l ls ih =>
    intro i hi cur idx hne j t h
    cases i with
    | zero =>
      have hlen : (0 : Int) < (l.text.length : Int) := by
        exact_mod_cast (by simpa using hne : 0 < l.text.length)
      have h0 : flatStart (l :: ls) 0 = 0 := by simp [flatStart]
      have hget : (l :: ls).get ⟨0, hi⟩ = l := rfl
      rw [hget] at h
      rw [findHitAux, h0, add_zero, if_neg] at h
      · have := findHitAux_le_index ls _ false _ _ _ _ h
        omega
      · rw [leafMatch_start_iff]
        intro hm
        linarith [hm.2]
    | succ k =>
      have hk : k < ls.length := Nat.lt_of_succ_lt_succ hi
      have hfs : 0 ≤ flatStart ls k := flatStart_nonneg ls k
      simp only [List.get_cons_succ] at hne h
      have hlen2 : (0 : Int) < ((ls.get ⟨k, hk⟩).text.length : Int) := by
        exact_mod_cast hne
      rw [findHitAux, flatStart_cons_succ, if_neg] at h
      · rw [show cur + ((l.text.length : Int) + flatStart ls k)
                + ((ls.get ⟨k, hk⟩).text.length : Int)
              = cur + (l.text.length : Int) + flatStart ls k
                + ((ls.get ⟨k, hk⟩).text.length : Int) by ring] at h
        have := ih k hk (cur + (l.text.length : Int)) (idx + 1) hne j t h
        omega
      · rw [leafMatch_start_iff]
        intro hm
        linarith [hm.2]

/-- C5: mode asymmetry of the leaf walk.  For a nonempty text leaf `i`:
in start mode the leaf's starting flat offset matches leaf `i` (resolving to
the leaf's document start), while its ending flat offset does not match leaf
`i` (any match is at a strictly later leaf); in end mode the leaf's ending
flat offset matches leaf `i` and resolves to the leaf's document end. -/
theorem findHit_boundary_asymmetry (doc : Doc) (i : Nat) (hi : i < doc.leaves.length)
    (hne : 0 < (doc.leaves.get ⟨i, hi⟩).text.length) :
    findHit doc (flatStart doc.leaves i) false = some (i, (doc.leaves.get ⟨i, hi⟩).pos) ∧
    (∀ (j : Nat) (t : Int),
       findHit doc (flatStart doc.leaves i + ((doc.leaves.get ⟨i, hi⟩).text.length : Int)) false
         = some (j, t) → i < j) ∧
    findHit doc (flatStart doc.leaves i + ((doc.leaves.get ⟨i, hi⟩).text.length : Int)) true
      = some (i, (doc.leaves.get ⟨i, hi⟩).pos + ((doc.leaves.get ⟨i, hi⟩).text.length : Int)) := by
  refine ⟨?_, ?_, ?_⟩
  · have := findHitAux_start_at_flatStart doc.leaves i hi 0 0 hne
    simpa [findHit] using this
  · intro j t h
    have h0 : findHitAux doc.leaves
        (0 + flatStart doc.leaves i + ((doc.leaves.get ⟨i, hi⟩).text.length : Int)) false 0 0
        = some (j, t) := by simpa [findHit] using h
    have := findHitAux_start_miss_at_flatEnd doc.leaves i hi 0 0 hne j t h0
    omega
  · have := findHitAux_end_at_flatEnd doc.leaves i hi 0 0 hne
    simpa [findHit] using this

/-- Witness for C5 on a concrete two-leaf document ("Hello" then "world"). -/
theorem findHit_boundary_asymmetry_witness :
    (0 < (([⟨1, "Hello"⟩, ⟨8, "world"⟩] : List Leaf).get ⟨0, by decide⟩).text.length) ∧
    (findHit ⟨[⟨1, "Hello"⟩, ⟨8, "world"⟩], 14⟩
        (flatStart [⟨1, "Hello"⟩, ⟨8, "world"⟩] 0) false = some (0, 1) ∧
     (∀ (j : Nat) (t : Int),
        findHit ⟨[⟨1, "Hello"⟩, ⟨8, "world"⟩], 14⟩
            (flatStart [⟨1, "Hello"⟩, ⟨8, "world"⟩] 0
              + ((([⟨1, "Hello"⟩, ⟨8, "world"⟩] : List Leaf).get ⟨0, by decide⟩).text.length : Int))
            false = some (j, t) → 0 < j) ∧
     findHit ⟨[⟨1, "Hello"⟩, ⟨8, "world"⟩], 14⟩
          (flatStart [⟨1, "Hello"⟩, ⟨8, "world"⟩] 0
            + ((([⟨1, "Hello"⟩, ⟨8, "world"⟩] : List Leaf).get ⟨0, by decide⟩).text.length : Int))
          true
        = some (0, 1 + ((([⟨1, "Hello"⟩, ⟨8, "world"⟩] : List Leaf).get ⟨0, by decide⟩).text.length : Int))) :=
  ⟨by decide, findHit_boundary_asymmetry ⟨[⟨1, "Hello"⟩, ⟨8, "world"⟩], 14⟩ 0 (by decide) (by decide)⟩

/-- Span identity used throughout the dual-dialect merge: an issue is
identified by the pair `(span.start, span.end)`. -/
def spanKey (r : LintResult) : Int × Int := (r.span.start, r.span.«end»)

/-- Embeds the predicate of `findMatch` in the dual-dialect worker:
`l.span.start === lint.span.start && l.span.end === lint.span.end`. -/
def spanEq (l lint : LintResult) : Bool :=
  l.span.start == lint.span.start && l.span.«end» == lint.span.«end»

/-- Embeds `findMatch` from the dual-dialect worker: the first element of
`list` whose span equals `lint`'s span. -/
def findMatch (lint : LintResult) (list : List LintResult) : Option LintResult :=
  list.find? (fun l => spanEq l lint)

/-- Embeds `Array.from(new Set([...a, ...b]))` applied to suggestion lists:
deduplication keeping the first occurrence of each string. -/
def dedupFirst : List String → List String
  | [] => []
  | x :: xs => x :: dedupFirst (xs.filter (fun y => y != x))
  termination_by l => l.length
  decreasing_by
    simp only [List.length_cons]
    exact Nat.lt_succ_of_le (List.length_filter_le _ _)

/-- Embeds the both-dialects case of the merge: keep the American lint with
the two suggestion lists concatenated and deduplicated. -/
def mergeBoth (aLint bMatch : LintResult) : LintResult :=
  { aLint with suggestions := dedupFirst (aLint.suggestions ++ bMatch.suggestions) }

/-- Embeds the body of the American pass of the merge loop: a matched lint is
pushed merged; an unmatched one is pushed iff its category is not
`Spelling`. -/
def mergeF (british : List LintResult) (aLint : LintResult) : Option LintResult :=
  match findMatch aLint british with
  | some bMatch => some (mergeBoth aLint bMatch)
  | none => if aLint.category != "Spelling" then some aLint else none

/-- Embeds the test of the British pass of the merge loop: push a British
lint iff it has no American match and is not a `Spelling` lint. -/
def keepB (american : List LintResult) (bLint : LintResult) : Bool :=
  (findMatch bLint american).isNone && bLint.category != "Spelling"

/-- Embeds the whole merge strategy of the dual-dialect worker's `lint`
handler (the two `forEach` pushes into `finalResults`, in order). -/
def mergeLints (american british : List LintResult) : List LintResult :=
  american.filterMap (mergeF british) ++ british.filter (keepB american)

theorem spanEq_iff (a b : LintResult) : spanEq a b = true ↔ spanKey a = spanKey b := by
  simp [spanEq, spanKey, Prod.ext_iff]

theorem dedupFirst_mem (l : List String) (s : String) : s ∈ dedupFirst l ↔ s ∈ l := by
  induction l using dedupFirst.induct with
  | case1 => simp [dedupFirst]
  | case2 x xs ih =>
    rw [dedupFirst]
    simp only [List.mem_cons, ih, List.mem_filter]
    by_cases hs : s = x
    · simp [hs]
    · simp [hs]

theorem dedupFirst_nodup (l : List String) : (dedupFirst l).Nodup := by
  induction l using dedupFirst.induct with
  | case1 => simp [dedupFirst]
  | case2 x xs ih =>
    rw [dedupFirst]
    refine List.nodup_cons.mpr ⟨?_, ih⟩
    rw [dedupFirst_mem]
    simp

theorem spanKey_mergeBoth (a b : LintResult) : spanKey (mergeBoth a b) = spanKey a := rfl

theorem findMatch_eq_none_iff (r : LintResult) (l : List LintResult) :
    findMatch r l = none ↔ ∀ x ∈ l, spanKey x ≠ spanKey r := by
  rw [findMatch, List.find?_eq_none]
  constructor
  · intro h x hx hk
    exact h x hx ((spanEq_iff ..).mpr hk)
  · intro h x hx hs
    exact h x hx ((spanEq_iff ..).mp hs)

theorem findMatch_some {r b : LintResult} {l : List LintResult}
    (h : findMatch r l = some b) : b ∈ l ∧ spanKey b = spanKey r := by
  have h2 : List.find? (fun x => spanEq x r) l = some b := h
  have h3 := List.find?_some h2
  exact ⟨List.mem_of_find?_eq_some h2, (spanEq_iff ..).mp (by simpa using h3)⟩

theorem findMatch_of_mem (l : List LintResult) (hN : (l.map spanKey).Nodup)
    {b : LintResult} (hb : b ∈ l) {r : LintResult} (hkey : spanKey b = spanKey r) :
    findMatch r l = some b := by
  induction l with
  | nil => simp at hb
  | cons x xs ih =>
    rcases List.mem_cons.mp hb with hbx | hbxs
    · subst hbx
      rw [findMatch, List.find?_cons_of_pos]
      exact (spanEq_iff ..).mpr hkey
    · have hxkey : spanKey x ≠ spanKey r := by
        intro hxr
        have hxb : spanKey x = spanKey b := by rw [hxr, hkey]
        have : spanKey b ∈ xs.map spanKey := List.mem_map_of_mem spanKey hbxs
        rw [← hxb] at this
        exact (List.nodup_cons.mp (by simpa using hN)).1 this
      rw [findMatch, List.find?_cons_of_neg]
      · exact ih (by simpa using (List.nodup_cons.mp (by simpa using hN)).2) hbxs
      · exact fun hs => hxkey ((spanEq_iff ..).mp hs)

theorem mergeF_matched {british : List LintResult} {a b : LintResult}
    (h : findMatch a british = some b) : mergeF british a = some (mergeBoth a b) := by
  unfold mergeF
  rw [h]

theorem mergeF_unmatched {british : List LintResult} {a : LintResult}
    (h : findMatch a british = none) :
    mergeF british a = if a.category != "Spelling" then some a else none := by
  unfold mergeF
  rw [h]

theorem mergeF_some_key {british : List LintResult} {a r : LintResult}
    (h : mergeF british a = some r) : spanKey r = spanKey a := by
  cases hfm : findMatch a british with
  | some b =>
    rw [mergeF_matched hfm] at h
    simp only [Option.some.injEq] at h
    rw [← h]
    rfl
  | none =>
    rw [mergeF_unmatched hfm] at h
    split at h
    · simp only [Option.some.injEq] at h
      rw [← h]
    · exact absurd h (by simp)

theorem mem_mergeLints {A B : List LintResult} {r : LintResult} :
    r ∈ mergeLints A B ↔
      (∃ a ∈ A, mergeF B a = some r) ∨ (r ∈ B ∧ keepB A r = true) := by
  simp [mergeLints, List.mem_append, List.mem_filterMap, List.mem_filter]

theorem keys_filterMap_sublist (B : List LintResult) (A : List LintResult) :
    ((A.filterMap (mergeF B)).map spanKey).Sublist (A.map spanKey) := by
  induction A with
  | nil => simp
  | cons a as ih =>
    rw [List.filterMap_cons]
    cases hfa : mergeF B a with
    | none => simpa using ih.cons _
    | some r =>
      simp only [List.map_cons]
      rw [mergeF_some_key hfa]
      exact ih.cons₂ _

theorem mergeLints_keys_nodup (A B : List LintResult)
    (hA : (A.map spanKey).Nodup) (hB : (B.map spanKey).Nodup) :
    ((mergeLints A B).map spanKey).Nodup := by
  have hsubA : ((A.filterMap (mergeF B)).map spanKey).Sublist (A.map spanKey) :=
    keys_filterMap_sublist B A
  have hsubB : ((B.filter (keepB A)).map spanKey).Sublist (B.map spanKey) :=
    (List.filter_sublist B).map spanKey
  have hdis : ∀ k, k ∈ (A.filterMap (mergeF B)).map spanKey →
      k ∉ (B.filter (keepB A)).map spanKey := by
    intro k hkA hkB
    obtain ⟨r1, hr1, hk1⟩ := List.mem_map.mp hkA
    obtain ⟨a, ha, hfa⟩ := List.mem_filterMap.mp hr1
    obtain ⟨r2, hr2, hk2⟩ := List.mem_map.mp hkB
    obtain ⟨hr2B, hkeep⟩ := List.mem_filter.mp hr2
    have hnone : (findMatch r2 A).isNone := (Bool.and_eq_true ..).mp hkeep |>.1
    have : ∀ x ∈ A, spanKey x ≠ spanKey r2 :=
      (findMatch_eq_none_iff ..).mp (Option.isNone_iff_eq_none.mp hnone)
    exact this a ha (by rw [mergeF_some_key hfa] at hk1; rw [hk1, hk2])
  rw [mergeLints, List.map_append]
  exact (hsubA.nodup hA).append (hsubB.nodup hB) hdis

/-- C2: the dual-dialect merge of the worker in `part_002` produces exactly:
every span flagged by both the American and the British linter is kept once,
with the union of both suggestion lists (duplicates removed); a span flagged
by only one linter is kept iff its category is not `Spelling`; and every
produced issue stems from one of the two lists.  Each engine list is assumed
to flag any given span at most once (span identity per §3 of the spec). -/
theorem mergeLints_dual_dialect_spec (A B : List LintResult)
    (hA : (A.map spanKey).Nodup) (hB : (B.map spanKey).Nodup) :
    ((mergeLints A B).map spanKey).Nodup ∧
    (∀ a ∈ A, ∀ b ∈ B, spanKey b = spanKey a →
      ∃ r ∈ mergeLints A B, spanKey r = spanKey a ∧
        r.message = a.message ∧ r.category = a.category ∧
        r.suggestions.Nodup ∧
        (∀ s, s ∈ r.suggestions ↔ s ∈ a.suggestions ∨ s ∈ b.suggestions)) ∧
    (∀ a ∈ A, (∀ b ∈ B, spanKey b ≠ spanKey a) →
      ((∃ r ∈ mergeLints A B, spanKey r = spanKey a) ↔ a.category ≠ "Spelling") ∧
      (a.category ≠ "Spelling" → a ∈ mergeLints A B)) ∧
    (∀ b ∈ B, (∀ a ∈ A, spanKey a ≠ spanKey b) →
      ((∃ r ∈ mergeLints A B, spanKey r = spanKey b) ↔ b.category ≠ "Spelling") ∧
      (b.category ≠ "Spelling" → b ∈ mergeLints A B)) ∧
    (∀ r ∈ mergeLints A B,
      (∃ a ∈ A, spanKey a = spanKey r) ∨ (∃ b ∈ B, spanKey b = spanKey r)) := by
  refine ⟨mergeLints_keys_nodup A B hA hB, ?_, ?_, ?_, ?_⟩
  · intro a ha b hb hkey
    have hfm : findMatch a B = some b := findMatch_of_mem B hB hb hkey
    refine ⟨mergeBoth a b, mem_mergeLints.mpr (Or.inl ⟨a, ha, mergeF_matched hfm⟩),
      rfl, rfl, rfl, dedupFirst_nodup _, ?_⟩
    intro s
    rw [show (mergeBoth a b).suggestions = dedupFirst (a.suggestions ++ b.suggestions) from rfl]
    rw [dedupFirst_mem, List.mem_append]
  · intro a ha hnok
    have hfm : findMatch a B = none := (findMatch_eq_none_iff ..).mpr hnok
    have hmem : a.category ≠ "Spelling" → a ∈ mergeLints A B := by
      intro hc
      refine mem_mergeLints.mpr (Or.inl ⟨a, ha, ?_⟩)
      rw [mergeF_unmatched hfm, if_pos (by simpa using hc)]
    refine ⟨⟨?_, fun hc => ⟨a, hmem hc, rfl⟩⟩, hmem⟩
    rintro ⟨r, hr, hkr⟩
    rcases mem_mergeLints.mp hr with ⟨a2, ha2, hfa2⟩ | ⟨hrB, hkeep⟩
    · have ha2key : spanKey a2 = spanKey a := by rw [← mergeF_some_key hfa2, hkr]
      have : a2 = a := List.inj_on_of_nodup_map hA ha2 ha ha2key
      subst this
      rw [mergeF_unmatched hfm] at hfa2
      by_cases hc : a2.category = "Spelling"
      · rw [if_neg (by simp [hc])] at hfa2
        exact absurd hfa2 (by simp)
      · exact hc
    · exact absurd hkr (hnok r hrB)
  · intro b hb hnok
    have hfm : findMatch b A = none :=
      (findMatch_eq_none_iff ..).mpr hnok
    have hmem : b.category ≠ "Spelling" → b ∈ mergeLints A B := by
      intro hc
      refine mem_mergeLints.mpr (Or.inr ⟨hb, ?_⟩)
      rw [keepB, hfm]
      simpa using hc
    refine ⟨⟨?_, fun hc => ⟨b, hmem hc, rfl⟩⟩, hmem⟩
    rintro ⟨r, hr, hkr⟩
    rcases mem_mergeLints.mp hr with ⟨a2, ha2, hfa2⟩ | ⟨hrB, hkeep⟩
    · have : spanKey a2 = spanKey b := by rw [← mergeF_some_key hfa2, hkr]
      exact absurd this (hnok a2 ha2)
    · have : r = b := List.inj_on_of_nodup_map hB hrB hb hkr
      subst this
      have := (Bool.and_eq_true ..).mp hkeep |>.2
      simpa using this
  · intro r hr
    rcases mem_mergeLints.mp hr with ⟨a, ha, hfa⟩ | ⟨hrB, _⟩
    · exact Or.inl ⟨a, ha, (mergeF_some_key hfa).symm⟩
    · exact Or.inr ⟨r, hrB, rfl⟩

/-- Witness for C2 on concrete lists: American flags "colour" (Spelling, span
0–6) and a grammar issue (span 8–10); British flags span 0–6 only.  The
hypotheses hold and the merged key list is duplicate-free. -/
theorem mergeLints_dual_dialect_spec_witness :
    ((([⟨"m1", ⟨0, 6⟩, ["color"], "Spelling"⟩,
        ⟨"g", ⟨8, 10⟩, ["xs"], "Grammar"⟩] : List LintResult).map spanKey).Nodup ∧
     (([⟨"m2", ⟨0, 6⟩, ["colour", "color"], "Spelling"⟩] : List LintResult).map spanKey).Nodup) ∧
    ((mergeLints
        [⟨"m1", ⟨0, 6⟩, ["color"], "Spelling"⟩, ⟨"g", ⟨8, 10⟩, ["xs"], "Grammar"⟩]
        [⟨"m2", ⟨0, 6⟩, ["colour", "color"], "Spelling"⟩]).map spanKey).Nodup :=
  ⟨⟨by decide, by decide⟩,
    (mergeLints_dual_dialect_spec
      [⟨"m1", ⟨0, 6⟩, ["color"], "Spelling"⟩, ⟨"g", ⟨8, 10⟩, ["xs"], "Grammar"⟩]
      [⟨"m2", ⟨0, 6⟩, ["colour", "color"], "Spelling"⟩]
      (by decide) (by decide)).1⟩

/-- Status surfaced to the UI through `onStatusChange` in the extensions. -/
inductive Status where
  | loading
  | ready
  | error
deriving DecidableEq, Repr

/-- Coordinator-visible state of the extension closures in
`src/HarperExtension.ts` / `src/NorwegianExtension.ts`: the `version` counter,
the `isReady` flag, the last status passed to `onStatusChange`, and the
document text (read when the `ready` message triggers the initial lint). -/
structure CoordState where
  version : Nat
  isReady : Bool
  status : Status
  docText : String
deriving DecidableEq, Repr

/-- Messages a worker posts back to the extension (`ready`, `error`,
`results`), as destructured by `worker.onmessage`. -/
inductive WorkerMsg where
  | ready
  | error (err : String) (version : Option Nat)
  | results (results : List LintResult) (version : Nat)
deriving DecidableEq, Repr

/-- Embeds `worker.onmessage` of `HarperExtension` (`src/HarperExtension.ts`):
returns the new coordinator state, the list of messages posted to the worker,
and the payload delivered to `onResults` (if any).  `ready` sets the flag and
posts the initial lint; `error` sets the error status before any version
check; `results` is delivered only when its version equals the current one. -/
def harperHandleMessage (st : CoordState) (msg : WorkerMsg) :
    CoordState × List LintRequest × Option (List LintResult) :=
  match msg with
  | .ready =>
      ({ st with isReady := true, status := Status.ready },
        [⟨st.docText, st.version⟩], none)
  | .error _ _ => ({ st with status := Status.error }, [], none)
  | .results rs v =>
      if v ≠ st.version then (st, [], none)
      else (st, [], some rs)

/-- Embeds `worker.onmessage` of `NorwegianExtension`
(`src/NorwegianExtension.ts`); identical to the Harper handler except that a
repeated `ready` is ignored once `isReady` is set. -/
def norwegianHandleMessage (st : CoordState) (msg : WorkerMsg) :
    CoordState × List LintRequest × Option (List LintResult) :=
  match msg with
  | .ready =>
      if st.isReady then (st, [], none)
      else ({ st with isReady := true, status := Status.ready },
        [⟨st.docText, st.version⟩], none)
  | .error _ _ => ({ st with status := Status.error }, [], none)
  | .results rs v =>
      if v ≠ st.version then (st, [], none)
      else (st, [], some rs)

/-- C1 counterexample: an error-variant response with a stale version (0,
while the coordinator is at version 1) is not discarded — it flips the
coordinator-visible status to `error`, so the claim as stated is false. -/
theorem stale_error_changes_status :
    (some 0 ≠ some (⟨1, true, Status.ready, "Hello"⟩ : CoordState).version) ∧
    (harperHandleMessage ⟨1, true, Status.ready, "Hello"⟩
        (WorkerMsg.error "boom" (some 0))).1 ≠ ⟨1, true, Status.ready, "Hello"⟩ ∧
    (harperHandleMessage ⟨1, true, Status.ready, "Hello"⟩
        (WorkerMsg.error "boom" (some 0))).1.status = Status.error ∧
    (norwegianHandleMessage ⟨1, true, Status.ready, "Hello"⟩
        (WorkerMsg.error "boom" (some 0))).1.status = Status.error := by
  refine ⟨by decide, ?_, rfl, rfl⟩
  intro h
  have := congrArg CoordState.status h
  simp [harperHandleMessage] at this

/-- C1 (amended): a results-variant response whose version differs from the
coordinator's current version is discarded — no state change, no worker
message, no delivery — and `onResults` only ever receives a results payload
tagged with the current version; an error-variant response, however, sets the
status to `error` regardless of its version. -/
theorem coord_staleness (st : CoordState) (rs : List LintResult) (v : Nat)
    (hv : v ≠ st.version) :
    harperHandleMessage st (WorkerMsg.results rs v) = (st, [], none) ∧
    norwegianHandleMessage st (WorkerMsg.results rs v) = (st, [], none) ∧
    (∀ (st2 : CoordState) (msg : WorkerMsg) (out : List LintResult),
       (harperHandleMessage st2 msg).2.2 = some out →
       msg = WorkerMsg.results out st2.version) ∧
    (∀ (st2 : CoordState) (msg : WorkerMsg) (out : List LintResult),
       (norwegianHandleMessage st2 msg).2.2 = some out →
       msg = WorkerMsg.results out st2.version) ∧
    (∀ (st2 : CoordState) (e : String) (v2 : Option Nat),
       (harperHandleMessage st2 (WorkerMsg.error e v2)).1.status = Status.error ∧
       (norwegianHandleMessage st2 (WorkerMsg.error e v2)).1.status = Status.error) := by
  refine ⟨?_, ?_, ?_, ?_, fun st2 e v2 => ⟨rfl, rfl⟩⟩
  · simp [harperHandleMessage, hv]
  · simp [norwegianHandleMessage, hv]
  · intro st2 msg out h
    cases msg with
    | ready => simp [harperHandleMessage] at h
    | error e v2 => simp [harperHandleMessage] at h
    | results rs2 v2 =>
      by_cases h2 : v2 = st2.version
      · simp [harperHandleMessage, h2] at h
        rw [h, h2]
      · simp [harperHandleMessage, h2] at h
  · intro st2 msg out h
    cases msg with
    | ready =>
      by_cases hr : st2.isReady <;> simp [norwegianHandleMessage, hr] at h
    | error e v2 => simp [norwegianHandleMessage] at h
    | results rs2 v2 =>
      by_cases h2 : v2 = st2.version
      · simp [norwegianHandleMessage, h2] at h
        rw [h, h2]
      · simp [norwegianHandleMessage, h2] at h

/-- Witness for the amended C1 at a concrete stale response. -/
theorem coord_staleness_witness :
    (0 ≠ (⟨1, true, Status.ready, "x"⟩ : CoordState).version) ∧
    harperHandleMessage ⟨1, true, Status.ready, "x"⟩ (WorkerMsg.results [] 0)
      = (⟨1, true, Status.ready, "x"⟩, [], none) :=
  ⟨by decide, (coord_staleness ⟨1, true, Status.ready, "x"⟩ [] 0 (by decide)).1⟩

/-- Debounce-relevant state of the extension `view` closures: the lazily
created `worker` handle, the `isReady` flag, `lastText`, the `version`
counter, and the pending debounce timer with the request its callback will
post. -/
structure DebounceState where
  worker : Bool
  isReady : Bool
  lastText : String
  version : Nat
  pending : Option LintRequest
deriving DecidableEq, Repr

/-- Events driving the debounce logic: a view update carrying the extracted
plain text, or the expiry of the debounce timer. -/
inductive CoordEvent where
  | change (text : String)
  | fire
deriving DecidableEq, Repr

/-- Embeds the `update` hook of the extensions (`src/HarperExtension.ts`,
`src/NorwegianExtension.ts`) and the debounce timer callback: a qualifying
change increments the version, records the text, and (re)schedules the timer
with the text and the captured version; the timer callback posts exactly that
request. -/
def debounceStep (st : DebounceState) (ev : CoordEvent) :
    DebounceState × List LintRequest :=
  match ev with
  | .change text =>
      if !st.worker || !st.isReady then (st, [])
      else if text ≠ st.lastText then
        ({ st with lastText := text, version := st.version + 1,
                   pending := some ⟨text, st.version + 1⟩ }, [])
      else (st, [])
  | .fire =>
      match st.pending with
      | some req => ({ st with pending := none }, [req])
      | none => (st, [])

/-- Runs a sequence of events, collecting every request posted to the
worker. -/
def runEvents : DebounceState → List CoordEvent → DebounceState × List LintRequest
  | st, [] => (st, [])
  | st, ev :: evs =>
      (((runEvents (debounceStep st ev).1 evs)).1,
        (debounceStep st ev).2 ++ (runEvents (debounceStep st ev).1 evs).2)

theorem runEvents_cons_snd (st : DebounceState) (ev : CoordEvent) (evs : List CoordEvent) :
    (runEvents st (ev :: evs)).2
      = (debounceStep st ev).2 ++ (runEvents (debounceStep st ev).1 evs).2 := rfl

/-- A sequence of texts is qualifying when each one differs from the
`lastText` recorded at the moment it arrives. -/
def qualifying : DebounceState → List String → Prop
  | _, [] => True
  | st, t :: ts => t ≠ st.lastText ∧ qualifying (debounceStep st (.change t)).1 ts

/-- C3: for K ≥ 1 qualifying changes all inside one debounce window (no timer
expiry in between) followed by the timer expiry, exactly one lint request is
posted, carrying the final change's text and the version counter recorded at
that final change; no request at all is posted before the timer fires. -/
theorem debounce_coalescing (ts : List String) (st : DebounceState)
    (hw : st.worker = true) (hr : st.isReady = true)
    (hts : ts ≠ []) (hq : qualifying st ts) :
    (runEvents st (ts.map CoordEvent.change ++ [CoordEvent.fire])).2
      = [⟨ts.getLast hts, st.version + ts.length⟩] ∧
    (runEvents st (ts.map CoordEvent.change)).2 = [] := by
  induction ts generalizing st with
  | nil => exact absurd rfl hts
  | cons t ts2 ih =>
    obtain ⟨hne, hq2⟩ := hq
    have hstep1 : (debounceStep st (.change t)).1
        = { st with lastText := t, version := st.version + 1,
                    pending := some ⟨t, st.version + 1⟩ } := by
      simp [debounceStep, hw, hr, hne]
    have hstep2 : (debounceStep st (.change t)).2 = [] := by
      simp [debounceStep, hw, hr, hne]
    rw [hstep1] at hq2
    cases ts2 with
    | nil =>
      refine ⟨?_, ?_⟩
      · rw [show ((([t] : List String).map CoordEvent.change) ++ [CoordEvent.fire])
              = CoordEvent.change t :: [CoordEvent.fire] by simp]
        rw [runEvents_cons_snd, hstep1, hstep2, List.nil_append]
        simp [runEvents, debounceStep]
      · rw [show (([t] : List String).map CoordEvent.change) = [CoordEvent.change t] by simp]
        rw [runEvents_cons_snd, hstep1, hstep2, List.nil_append]
        simp [runEvents]
    | cons t2 ts3 =>
      have hcons : (t2 :: ts3 : List String) ≠ [] := by simp
      have ih2 := ih ({ st with lastText := t, version := st.version + 1,
                                pending := some ⟨t, st.version + 1⟩ }) hw hr hcons hq2
      refine ⟨?_, ?_⟩
      · rw [show (((t :: t2 :: ts3 : List String).map CoordEvent.change) ++ [CoordEvent.fire])
              = CoordEvent.change t
                :: (((t2 :: ts3 : List String).map CoordEvent.change) ++ [CoordEvent.fire]) by simp]
        rw [runEvents_cons_snd, hstep1, hstep2, List.nil_append, ih2.1]
        simp [List.getLast_cons hcons]
        omega
      · rw [show ((t :: t2 :: ts3 : List String).map CoordEvent.change)
              = CoordEvent.change t :: ((t2 :: ts3 : List String).map CoordEvent.change) by simp]
        rw [runEvents_cons_snd, hstep1, hstep2, List.nil_append, ih2.2]


/-- Witness for C3: two rapid qualifying changes then the timer expiry post
exactly the one request for the final text at version 2. -/
theorem debounce_coalescing_witness :
    ((["a", "ab"] : List String) ≠ [] ∧
      qualifying ⟨true, true, "", 0, none⟩ ["a", "ab"]) ∧
    (runEvents ⟨true, true, "", 0, none⟩
        ((["a", "ab"].map CoordEvent.change) ++ [CoordEvent.fire])).2
      = [⟨(["a", "ab"] : List String).getLast (by decide), 0 + 2⟩] ∧
    (runEvents ⟨true, true, "", 0, none⟩ (["a", "ab"].map CoordEvent.change)).2 = [] :=
  ⟨⟨by decide, by constructor <;> simp [debounceStep, qualifying]⟩,
    debounce_coalescing ["a", "ab"] ⟨true, true, "", 0, none⟩ rfl rfl (by decide)
      (by constructor <;> simp [debounceStep, qualifying])⟩

/-- Embeds the JavaScript test `!text || text.trim().length === 0` (and the
equivalent `!text.trim()`): true iff every character of the text is
whitespace.  JavaScript's trimmed whitespace class is modelled by
`Char.isWhitespace`. -/
def isBlank (text : String) : Bool := text.data.all (fun c => c.isWhitespace)

/-- State of the versioned `harper.worker.ts` variant: whether the
module-level `linter` variable has been assigned. -/
structure HarperWorkerState where
  linter : Bool
deriving DecidableEq, Repr

/-- Embeds `init` of the versioned `harper.worker.ts` variant: the linter is
constructed at most once (`if (!linter)`, and the assignment happens before
the awaited `setup`, so a failing setup still leaves `linter` assigned); the
`catch` only logs, so no message is posted on success or on failure.
`setupOk` abstracts whether `linter.setup()` resolves. -/
def harperWorkerInit (st : HarperWorkerState) (setupOk : Bool) :
    HarperWorkerState × List WorkerMsg :=
  if st.linter then (st, [])
  else
    match setupOk with
    | true => (⟨true⟩, [])
    | false => (⟨true⟩, [])

/-- State of `norwegian.worker.ts`: the `typo` instance, the
`isInitializing` re-entry guard and the `dictionaryLoaded` flag. -/
structure NorwegianWorkerState where
  typo : Bool
  isInitializing : Bool
  dictionaryLoaded : Bool
deriving DecidableEq, Repr

/-- Embeds `init` of `norwegian.worker.ts`: re-entry during an in-flight init
is a no-op, a completed init is a no-op, a successful fresh init loads the
dictionary and posts `ready`, a failed one posts `error`; `isInitializing`
is reset in the `finally`.  `fetchOk` abstracts whether the dictionary
fetches and the `Typo` construction succeed. -/
def norwegianInit (st : NorwegianWorkerState) (fetchOk : Bool) :
    NorwegianWorkerState × List WorkerMsg :=
  if st.isInitializing then (st, [])
  else if st.dictionaryLoaded && st.typo then (st, [])
  else if fetchOk then
    ({ typo := true, isInitializing := false, dictionaryLoaded := true },
      [WorkerMsg.ready])
  else
    ({ st with isInitializing := false }, [WorkerMsg.error "init failed" none])

/-- State of the dual-dialect worker (`part_002`): the two linter variables
and the `isInitializing` guard. -/
structure DualWorkerState where
  americanLinter : Bool
  britishLinter : Bool
  isInitializing : Bool
deriving DecidableEq, Repr

/-- Embeds `init` of the dual-dialect worker: guarded by `isInitializing` and
by both linters being present; each linter is assigned before its awaited
`setup` (so a failing setup still leaves the variable assigned); `ready` is
posted once both linters are up, `error` on a throw.  `amOk` / `brOk`
abstract the two `setup()` calls. -/
def dualInit (st : DualWorkerState) (amOk brOk : Bool) :
    DualWorkerState × List WorkerMsg :=
  if st.isInitializing then (st, [])
  else if st.americanLinter && st.britishLinter then (st, [])
  else if !st.americanLinter && !amOk then
    ({ st with americanLinter := true, isInitializing := false },
      [WorkerMsg.error "setup failed" none])
  else if !st.britishLinter && !brOk then
    ({ americanLinter := true, britishLinter := true, isInitializing := false },
      [WorkerMsg.error "setup failed" none])
  else
    ({ americanLinter := true, britishLinter := true, isInitializing := false },
      [WorkerMsg.ready])

/-- C6 evidence: on the versioned `harper.worker.ts` variant, `init` posts no
message at all — no `ready` on success and no `error` on failure (its
`catch` only logs) — although `HarperExtension` waits for `ready` before
sending any lint request; construction stays idempotent.  The norwegian and
dual-dialect workers, by contrast, post `ready` exactly once on a successful
fresh init and nothing on a repeated one. -/
theorem harper_worker_init_signals_nothing :
    (harperWorkerInit ⟨false⟩ true).2 = [] ∧
    (harperWorkerInit ⟨false⟩ false).2 = [] ∧
    (harperWorkerInit (harperWorkerInit ⟨false⟩ true).1 true).1 = ⟨true⟩ ∧
    (norwegianInit ⟨false, false, false⟩ true).2 = [WorkerMsg.ready] ∧
    (norwegianInit (norwegianInit ⟨false, false, false⟩ true).1 true).2 = [] ∧
    (dualInit ⟨false, false, false⟩ true true).2 = [WorkerMsg.ready] ∧
    (dualInit (dualInit ⟨false, false, false⟩ true true).1 true true).2 = [] := by
  decide

/-- Embeds the `lint` branch of the versioned `harper.worker.ts` `onmessage`
(after `await init()`): without a linter nothing is posted (warning only);
with one, blank text short-circuits to empty `results` tagged with the
request version; otherwise the engine runs, its outcome abstracted by
`engine`.  The second component records whether `linter.lint` was invoked. -/
def harperLintHandler (st : HarperWorkerState)
    (engine : Except String (List LintResult)) (text : String) (version : Nat) :
    List WorkerMsg × Bool :=
  if st.linter then
    if isBlank text then ([WorkerMsg.results [] version], false)
    else
      match engine with
      | .ok lints => ([WorkerMsg.results lints version], true)
      | .error e => ([WorkerMsg.error e (some version)], true)
  else ([], false)

/-- Character class of the word regex `[\p{L}\p{M}]+` of
`norwegian.worker.ts`, the Unicode letter/mark classes modelled by
`Char.isAlpha`. -/
def isWordChar (c : Char) : Bool := c.isAlpha

/-- Embeds the `wordRegex.exec` loop of `lintText`: the maximal runs of word
characters with their starting indices. -/
def tokenize (cs : List Char) (i : Nat) : List (Nat × List Char) :=
  match cs with
  | [] => []
  | c :: cs2 =>
    if h : isWordChar c = true then
      (i, (c :: cs2).takeWhile isWordChar)
        :: tokenize ((c :: cs2).dropWhile isWordChar)
            (i + ((c :: cs2).takeWhile isWordChar).length)
    else tokenize cs2 (i + 1)
  termination_by cs.length
  decreasing_by
    · rw [List.dropWhile_cons, if_pos h]
      exact Nat.lt_succ_of_le ((List.dropWhile_suffix _).sublist.length_le)
    · simp

/-- Embeds `lintText` of `norwegian.worker.ts`: blank text (or a missing
`typo` instance) yields no results without consulting the dictionary; words
shorter than 2 characters are skipped; each remaining word failing
`typo.check` becomes a `Spelling` result with up to five suggestions.  The
dictionary engine is abstracted by `check` / `suggest`; the second component
records whether `typo.check` was invoked. -/
def lintText (typoLoaded : Bool) (check : String → Bool)
    (suggest : String → List String) (text : String) : List LintResult × Bool :=
  if !typoLoaded || isBlank text then ([], false)
  else
    ((((tokenize text.data 0).filter (fun t => 2 ≤ t.2.length)).filterMap (fun t =>
        if check (String.mk t.2) then none
        else some ⟨"\"" ++ String.mk t.2 ++ "\" kan være feilstavet.",
          ⟨(t.1 : Int), ((t.1 + t.2.length : Nat) : Int)⟩,
          (suggest (String.mk t.2)).take 5, "Spelling"⟩)),
      !((tokenize text.data 0).filter (fun t => 2 ≤ t.2.length)).isEmpty)

/-- Embeds the `lint` branch of `norwegian.worker.ts`'s `onmessage` (after
`await init()`): posts the `lintText` results tagged with the request's
version when the dictionary is loaded, otherwise only warns. -/
def norwegianLintHandler (st : NorwegianWorkerState) (check : String → Bool)
    (suggest : String → List String) (text : String) (version : Nat) :
    List WorkerMsg × Bool :=
  if st.typo && st.dictionaryLoaded then
    ([WorkerMsg.results (lintText st.typo check suggest text).1 version],
      (lintText st.typo check suggest text).2)
  else ([], false)

/-- Embeds the `lint` branch of the dual-dialect worker's `onmessage` (after
`await init()`): blank text short-circuits to empty `results` tagged with the
request's version; otherwise both engines run (their joint outcome abstracted
by `engines`) and the merged list is posted. -/
def dualLintHandler (st : DualWorkerState)
    (engines : Except String (List LintResult × List LintResult))
    (text : String) (version : Nat) : List WorkerMsg × Bool :=
  if st.americanLinter && st.britishLinter then
    if isBlank text then ([WorkerMsg.results [] version], false)
    else
      match engines with
      | .ok lints => ([WorkerMsg.results (mergeLints lints.1 lints.2) version], true)
      | .error e => ([WorkerMsg.error e (some version)], true)
  else ([], false)

/-- C8: a lint request whose text is empty or whitespace-only makes each
initialized worker variant post a `results` message with the empty list,
tagged with the request's version, without invoking the underlying linting
engine. -/
theorem empty_text_fast_path (text : String) (version : Nat)
    (engine : Except String (List LintResult))
    (engines : Except String (List LintResult × List LintResult))
    (check : String → Bool) (suggest : String → List String)
    (h : isBlank text = true) :
    harperLintHandler ⟨true⟩ engine text version
      = ([WorkerMsg.results [] version], false) ∧
    norwegianLintHandler ⟨true, false, true⟩ check suggest text version
      = ([WorkerMsg.results [] version], false) ∧
    dualLintHandler ⟨true, true, false⟩ engines text version
      = ([WorkerMsg.results [] version], false) := by
  refine ⟨?_, ?_, ?_⟩ <;>
    simp [harperLintHandler, norwegianLintHandler, dualLintHandler, lintText, h]

/-- Witness for C8 at the whitespace-only text of two spaces and a tab. -/
theorem empty_text_fast_path_witness :
    (isBlank "  \t" = true) ∧
    harperLintHandler ⟨true⟩ (Except.ok [⟨"m", ⟨0, 1⟩, [], "Spelling"⟩]) "  \t" 7
      = ([WorkerMsg.results [] 7], false) ∧
    norwegianLintHandler ⟨true, false, true⟩ (fun _ => false) (fun _ => []) "  \t" 7
      = ([WorkerMsg.results [] 7], false) ∧
    dualLintHandler ⟨true, true, false⟩ (Except.ok ([], [])) "  \t" 7
      = ([WorkerMsg.results [] 7], false) :=
  ⟨by decide,
    empty_text_fast_path "  \t" 7 (Except.ok [⟨"m", ⟨0, 1⟩, [], "Spelling"⟩])
      (Except.ok ([], [])) (fun _ => false) (fun _ => []) (by decide)⟩

/-- Embeds the `ignoredSpans` entries of `src/App.tsx`:
`{ start, end, text }` as recorded by the Ignorer button. -/
structure IgnoredSpan where
  start : Int
  «end» : Int
  text : String
deriving DecidableEq, Repr

/-- Embeds the `spellcheckLang` state of `src/App.tsx`. -/
inductive SpellLang where
  | en
  | no
  | off
deriving DecidableEq, Repr

/-- Substring of `s` from character index `a` (inclusive) to `b`
(exclusive). -/
def strSub (s : String) (a b : Nat) : String := String.mk ((s.data.drop a).take (b - a))

/-- Embeds ProseMirror's `doc.textBetween(a, b)` over the text leaves: each
leaf overlapping the position range contributes the corresponding slice of
its text (no block separators, as in the source's call). -/
def textBetween (doc : Doc) (a b : Int) : String :=
  String.join (doc.leaves.map (fun leaf =>
    if leaf.pos < b && a < leaf.pos + (leaf.text.length : Int) then
      strSub leaf.text (max (a - leaf.pos) 0).toNat
        (min (leaf.text.length : Int) (b - leaf.pos)).toNat
    else ""))

/-- Embeds the filter body of `filteredResults` in `src/App.tsx`: drop
`Style` and `WordChoice`, drop the `Capitalization` advice whose suggestions
include the exact string "IDE", and drop an issue matched by an IgnoredSpan
on span start, span end, and the current document text in the mapped
range. -/
def keepResult (doc : Doc) (ignoredSpans : List IgnoredSpan)
    (result : LintResult) : Bool :=
  if result.category == "Style" || result.category == "WordChoice" then false
  else if result.category == "Capitalization" && result.suggestions.contains "IDE" then
    false
  else
    !(ignoredSpans.any (fun ignored =>
      ignored.start == result.span.start &&
      ignored.«end» == result.span.«end» &&
      ignored.text == textBetween doc (getPos doc result.span.start false)
        (getPos doc result.span.«end» true)))

/-- Embeds `filteredResults` of `src/App.tsx`: with no editor or spellcheck
off the list is empty, otherwise the lint results are filtered by
`keepResult`. -/
def filteredResults (lang : SpellLang) (doc : Option Doc)
    (lintResults : List LintResult) (ignoredSpans : List IgnoredSpan) :
    List LintResult :=
  match doc, lang with
  | none, _ => []
  | some _, SpellLang.off => []
  | some d, _ => lintResults.filter (keepResult d ignoredSpans)

theorem keepResult_eq_true_iff (doc : Doc) (ignoredSpans : List IgnoredSpan)
    (r : LintResult) :
    keepResult doc ignoredSpans r = true ↔
      ¬(r.category = "Style" ∨ r.category = "WordChoice") ∧
      ¬(r.category = "Capitalization" ∧ "IDE" ∈ r.suggestions) ∧
      ¬∃ ignored ∈ ignoredSpans,
        ignored.start = r.span.start ∧ ignored.«end» = r.span.«end» ∧
        ignored.text = textBetween doc (getPos doc r.span.start false)
          (getPos doc r.span.«end» true) := by
  unfold keepResult
  by_cases h1 : r.category = "Style" ∨ r.category = "WordChoice"
  · rw [if_pos (by rcases h1 with h | h <;> simp [h])]
    simp [h1]
  · rw [if_neg (by simpa using h1)]
    by_cases h2 : r.category = "Capitalization" ∧ "IDE" ∈ r.suggestions
    · rw [if_pos (by simp [h2.1, h2.2])]
      simp [h2]
    · rw [if_neg (by simpa using h2)]
      simp only [Bool.not_eq_true', List.any_eq_false]
      constructor
      · intro h
        refine ⟨h1, h2, ?_⟩
        rintro ⟨ignored, hig, hs, he, ht⟩
        have := h ignored hig
        simp [hs, he, ht] at this
      · rintro ⟨-, -, h⟩ ignored hig
        by_contra hc
        simp only [Bool.not_eq_false, Bool.and_eq_true, beq_iff_eq] at hc
        exact h ⟨ignored, hig, hc.1.1, hc.1.2, hc.2⟩

/-- C7: with a live editor and spellcheck enabled, a lint issue is in the
filtered list iff it is a lint result, survives the category filters, and no
IgnoredSpan matches all three of: its span start, its span end, and the
current document text in the mapped range — so an ignore recorded at other
offsets (e.g. after the flagged word shifted) does not suppress it. -/
theorem ignored_span_suppression_iff (lang : SpellLang) (doc : Doc)
    (lintResults : List LintResult) (ignoredSpans : List IgnoredSpan)
    (r : LintResult) (hlang : lang ≠ SpellLang.off) :
    r ∈ filteredResults lang (some doc) lintResults ignoredSpans ↔
      r ∈ lintResults ∧
      ¬(r.category = "Style" ∨ r.category = "WordChoice") ∧
      ¬(r.category = "Capitalization" ∧ "IDE" ∈ r.suggestions) ∧
      ¬∃ ignored ∈ ignoredSpans,
        ignored.start = r.span.start ∧ ignored.«end» = r.span.«end» ∧
        ignored.text = textBetween doc (getPos doc r.span.start false)
          (getPos doc r.span.«end» true) := by
  cases lang with
  | off => exact absurd rfl hlang
  | en =>
    rw [show filteredResults SpellLang.en (some doc) lintResults ignoredSpans
          = lintResults.filter (keepResult doc ignoredSpans) from rfl]
    rw [List.mem_filter, keepResult_eq_true_iff]
  | no =>
    rw [show filteredResults SpellLang.no (some doc) lintResults ignoredSpans
          = lintResults.filter (keepResult doc ignoredSpans) from rfl]
    rw [List.mem_filter, keepResult_eq_true_iff]

/-- Witness for C7: the spec's shift scenario.  "wrold" was ignored at span
[4,9), then an edit before it moved the word to span [5,10) of the document
"Heia wrold mer"; the stale ignore does not suppress the re-flagged issue. -/
theorem ignored_span_suppression_iff_witness :
    (⟨"m", ⟨5, 10⟩, ["world"], "Spelling"⟩ : LintResult)
      ∈ filteredResults SpellLang.en (some ⟨[⟨1, "Heia wrold mer"⟩], 16⟩)
          [⟨"m", ⟨5, 10⟩, ["world"], "Spelling"⟩] [⟨4, 9, "wrold"⟩] :=
  (ignored_span_suppression_iff SpellLang.en ⟨[⟨1, "Heia wrold mer"⟩], 16⟩
      [⟨"m", ⟨5, 10⟩, ["world"], "Spelling"⟩] [⟨4, 9, "wrold"⟩]
      ⟨"m", ⟨5, 10⟩, ["world"], "Spelling"⟩ (by decide)).mpr (by decide)

/-- C10: a `Capitalization` result whose suggestions contain the exact
string "IDE" never passes the result filter, for any language, document,
result list and ignore list. -/
theorem ide_capitalization_suppressed (lang : SpellLang) (doc : Option Doc)
    (lintResults : List LintResult) (ignoredSpans : List IgnoredSpan)
    (r : LintResult) (h1 : r.category = "Capitalization")
    (h2 : "IDE" ∈ r.suggestions) :
    r ∉ filteredResults lang doc lintResults ignoredSpans := by
  intro hmem
  cases doc with
  | none => simp [filteredResults] at hmem
  | some d =>
    cases lang with
    | off => simp [filteredResults] at hmem
    | en =>
      have hk := (List.mem_filter.mp (by simpa [filteredResults] using hmem)).2
      rw [keepResult_eq_true_iff] at hk
      exact hk.2.1 ⟨h1, h2⟩
    | no =>
      have hk := (List.mem_filter.mp (by simpa [filteredResults] using hmem)).2
      rw [keepResult_eq_true_iff] at hk
      exact hk.2.1 ⟨h1, h2⟩

/-- Witness for C10 at a concrete all-caps advice result. -/
theorem ide_capitalization_suppressed_witness :
    (⟨"caps", ⟨0, 3⟩, ["IDE"], "Capitalization"⟩ : LintResult)
      ∉ filteredResults SpellLang.en (some ⟨[⟨1, "ide her"⟩], 9⟩)
          [⟨"caps", ⟨0, 3⟩, ["IDE"], "Capitalization"⟩] [] :=
  ide_capitalization_suppressed SpellLang.en (some ⟨[⟨1, "ide her"⟩], 9⟩)
    [⟨"caps", ⟨0, 3⟩, ["IDE"], "Capitalization"⟩] []
    ⟨"caps", ⟨0, 3⟩, ["IDE"], "Capitalization"⟩ rfl (by decide)

/-- Embeds the focused-issue key `` `${start}-${end}` `` of `src/App.tsx`. -/
def errorKey (r : LintResult) : String :=
  toString r.span.start ++ "-" ++ toString r.span.«end»

/-- An inline decoration as created by `Decoration.inline(startPos, endPos,
attrs)`: its range and whether it carries the focused styling. -/
structure InlineDeco where
  fromPos : Int
  toPos : Int
  focused : Bool
deriving DecidableEq, Repr

/-- Embeds the decoration update effect of `src/App.tsx`: with no editor no
transaction is dispatched (`none`); with an empty filtered list a transaction
carrying the empty decoration set is dispatched (`some []`); otherwise each
issue is mapped through `getPos` (start mode / end mode) and rendered only
when the mapped range is valid. -/
def decorationUpdate (doc : Option Doc) (results : List LintResult)
    (focusedKey : Option String) : Option (List InlineDeco) :=
  match doc with
  | none => none
  | some d =>
    if results.length = 0 then some []
    else some (results.filterMap (fun r =>
      if getPos d r.span.start false ≥ 1 &&
          getPos d r.span.«end» true > getPos d r.span.start false &&
          getPos d r.span.«end» true < d.contentSize then
        some ⟨getPos d r.span.start false, getPos d r.span.«end» true,
          focusedKey == some (errorKey r)⟩
      else none))

/-- Embeds the `apply` of the decoration plugin state
(`src/HarperExtension.ts`): a `set-decorations` meta transaction replaces the
whole decoration set; without one the old set is carried over (mapped through
the transaction; the mapping itself is abstracted as its result). -/
def pluginApply (meta : Option (List InlineDeco))
    (oldMapped : List InlineDeco) : List InlineDeco :=
  match meta with
  | some decorations => decorations
  | none => oldMapped

/-- C9: whenever the filtered issue list is empty, the decoration effect
dispatches a transaction carrying the empty decoration set (an explicit
`some []`, not the no-dispatch `none`), and applying that transaction leaves
no decoration from any previous set. -/
theorem empty_results_clear_decorations (d : Doc) (focusedKey : Option String)
    (old : List InlineDeco) (results : List LintResult) (h : results = []) :
    decorationUpdate (some d) results focusedKey = some [] ∧
    pluginApply (decorationUpdate (some d) results focusedKey) old = [] := by
  subst h
  exact ⟨rfl, rfl⟩

/-- Witness for C9: an empty render clears a previously non-empty set. -/
theorem empty_results_clear_decorations_witness :
    decorationUpdate (some ⟨[⟨1, "Hei"⟩], 5⟩) [] (some "0-2") = some [] ∧
    pluginApply (decorationUpdate (some ⟨[⟨1, "Hei"⟩], 5⟩) [] (some "0-2"))
      [⟨1, 3, false⟩] = [] :=
  empty_results_clear_decorations ⟨[⟨1, "Hei"⟩], 5⟩ (some "0-2") [⟨1, 3, false⟩] [] rfl

/-- Witness for C4 at a concrete document and a negative offset. -/
theorem getPos_bounds_witness :
    (1 ≤ getPos ⟨[⟨1, "Hei"⟩], 5⟩ (-7) false ∧
      getPos ⟨[⟨1, "Hei"⟩], 5⟩ (-7) false ≤ max 1 ((5 : Int) - 1)) ∧
    (findHit ⟨[⟨1, "Hei"⟩], 5⟩ (-7) false = none →
      getPos ⟨[⟨1, "Hei"⟩], 5⟩ (-7) false = min (max 1 ((-7 : Int) + 1)) (max 1 ((5 : Int) - 1))) :=
  getPos_bounds ⟨[⟨1, "Hei"⟩], 5⟩ (-7) false

end VestbyProve
